import Mathlib

/-!
Verification development for the discrete-martingales library.

The library has two modules:

* `martingales.py` — `simulate_martingale_betting_strategy` runs, per path,
  a doubling betting strategy over a row of ±1 tosses, and
  `check_martingale_property_by_time` compares cross-path means at
  consecutive steps.

* `conditional_expectation.py` — `build_partial_sums` (a cumulative sum
  along the time axis) and two conditional-expectation estimators that
  group paths by a key (history prefix, or partial-sum value) at time `t`
  and average the next-step observation per group.

The betting simulator is embedded per path: the sampled toss row is an
arbitrary function `X : Nat → Int`, and `bettingState`, `B`, `W` mirror the
loop body of `simulate_martingale_betting_strategy` (the `betting` flag at
the top of iteration `t`, the arrays `B[i, ·]` and `W[i, ·]`).  Matrices
are embedded as `List (List Int)` row lists; real arithmetic (numpy float
means) is embedded as `Rat`.
-/

/-- The `betting` flag of `simulate_martingale_betting_strategy` as seen at
the top of loop iteration `t`: initially `True`; iteration `t` clears it
exactly when it was set and, with `t > 0`, the previous toss `X[t-1]` was
not `-1` (the win branch `else: B[i,t] = 0; betting = False`). -/
def bettingState (X : Nat → Int) : Nat → Bool
  | 0 => true
  | t + 1 => bettingState X t && (decide (t = 0) || decide (X (t - 1) = -1))

/-- The bet `B[i, t]` of `simulate_martingale_betting_strategy`: `0` when
the path is no longer betting; otherwise `1` at `t = 0`, doubled
(`2 * B[i, t-1]`) after a loss, and `0` on the win branch. -/
def B (X : Nat → Int) : Nat → Int
  | 0 => if bettingState X 0 then 1 else 0
  | t + 1 =>
    if bettingState X (t + 1) then
      if X t = -1 then 2 * B X t else 0
    else 0

/-- The cumulative winnings `W[i, t]` of
`simulate_martingale_betting_strategy`: while betting,
`W[i, t] = W[i, t-1] + B[i, t] * X[i, t]` (just `B[i, 0] * X[i, 0]` at
`t = 0`); once stopped, `W[i, t] = W[i, t-1]` (copy-forward).  The stopped
branch is unreachable at `t = 0` (see `bettingState`), so the embedding
starts from the betting branch there. -/
def W (X : Nat → Int) : Nat → Int
  | 0 => B X 0 * X 0
  | t + 1 =>
    if bettingState X (t + 1) then
      W X t + B X (t + 1) * X (t + 1)
    else W X t

/-- One row of `np.cumsum(coin_tosses, axis=1)`: running sums with
accumulator `acc` (the real call starts from `acc = 0`). -/
def cumsumRow (acc : Int) : List Int → List Int
  | [] => []
  | x :: xs => (acc + x) :: cumsumRow (acc + x) xs

/-- `build_partial_sums(coin_tosses)`: cumulative sums along the time axis,
row by row. -/
def build_partial_sums (coin_tosses : List (List Int)) : List (List Int) :=
  coin_tosses.map (cumsumRow 0)

/-- `groups.setdefault(key, []).append(value)`: append `v` to the entry of
key `k`, creating the entry at the end when the key is absent.  The
Python `dict` is embedded as an insertion-ordered association list. -/
def insertGroup {κ : Type} [DecidableEq κ] (k : κ) (v : Int) :
    List (κ × List Int) → List (κ × List Int)
  | [] => [(k, [v])]
  | e :: rest =>
    if e.1 = k then (e.1, e.2 ++ [v]) :: rest else e :: insertGroup k v rest

/-- The grouping loop shared by both estimators: fold the rows, inserting
`val row` under `key row`. -/
def groupPaths {κ : Type} [DecidableEq κ] (key : List Int → κ)
    (val : List Int → Int) (rows : List (List Int)) : List (κ × List Int) :=
  rows.foldl (fun g row => insertGroup (key row) (val row) g) []

/-- `np.mean(v)` on an integer list, in exact rational arithmetic. -/
def mean (v : List Int) : Rat :=
  (v.sum : Rat) / (v.length : Rat)

/-- `estimate_conditional_expectation(coin_tosses, t)`: validate
`0 ≤ t < n_steps − 1` (else raise), group paths by the history prefix
`tuple(path[: t + 1])`, record `path[t + 1]` per group, and return the map
of group means. -/
def estimate_conditional_expectation (coin_tosses : List (List Int))
    (t : Int) : Except String (List (List Int × Rat)) :=
  if 0 ≤ t ∧ t < ((coin_tosses.headD []).length : Int) - 1 then
    .ok ((groupPaths (fun path => path.take (t.toNat + 1))
        (fun path => path.getD (t.toNat + 1) 0) coin_tosses).map
      (fun e => (e.1, mean e.2)))
  else
    .error "t must satisfy 0 <= t < n_steps-1"

/-- `estimate_conditional_expectation_sums(partial_sums, t)`: same
algorithm, keyed by the scalar `S[t]` with value `S[t + 1]`. -/
def estimate_conditional_expectation_sums (ps : List (List Int))
    (t : Int) : Except String (List (Int × Rat)) :=
  if 0 ≤ t ∧ t < ((ps.headD []).length : Int) - 1 then
    .ok ((groupPaths (fun S => S.getD t.toNat 0)
        (fun S => S.getD (t.toNat + 1) 0) ps).map
      (fun e => (e.1, mean e.2)))
  else
    .error "t must satisfy 0 <= t < n_steps-1"

/-- `np.mean(process[:, t])`: the cross-path empirical mean of column `t`,
in exact rational arithmetic. -/
def colMean (process : List (List Rat)) (t : Nat) : Rat :=
  (process.map (fun row => row.getD t 0)).sum / (process.length : Rat)

/-- `check_martingale_property_by_time(process, tol)`: for each
`t = 0 .. n_steps − 2` in order, whether
`|mean(col t+1) − mean(col t)| < tol`. -/
def check_martingale_property_by_time (process : List (List Rat))
    (tol : Rat) : List Bool :=
  (List.range ((process.headD []).length - 1)).map
    (fun t => decide (|colMean process (t + 1) - colMean process t| < tol))

/-- Observer for the grouping: total number of recorded next-step
observations over all groups (each path contributes one). -/
def sizeSum {κ : Type} (g : List (κ × List Int)) : Nat :=
  (g.map (fun e => e.2.length)).sum

/-- Observer for the grouping: the list of observations stored under key
`k` (that of the first — in reachable states, only — entry with key `k`). -/
def groupVals {κ : Type} [DecidableEq κ] (k : κ)
    (g : List (κ × List Int)) : List Int :=
  match g.find? (fun e => decide (e.1 = k)) with
  | none => []
  | some e => e.2

section SanityChecks

/-- Spec scenario: `X = [1, -1, 1]` gives `B = [1, 0, 0]`, `W = [1, 1, 1]`. -/
example :
    let X : Nat → Int := fun t => if t = 1 then -1 else 1
    B X 0 = 1 ∧ B X 1 = 0 ∧ B X 2 = 0 ∧ W X 0 = 1 ∧ W X 1 = 1 ∧ W X 2 = 1 := by
  decide

/-- Spec scenario: `X = [-1, 1, -1]` gives `B = [1, 2, 0]`, `W = [-1, 1, 1]`. -/
example :
    let X : Nat → Int := fun t => if t = 1 then 1 else -1
    B X 0 = 1 ∧ B X 1 = 2 ∧ B X 2 = 0 ∧ W X 0 = -1 ∧ W X 1 = 1 ∧ W X 2 = 1 := by
  decide

example : build_partial_sums [[1, -1, -1], [1, 1, 1]] = [[1, 0, -1], [1, 2, 3]] := by
  decide

example :
    check_martingale_property_by_time [[0, 1, 0], [0, -1, 1]] (1 / 2) =
      [true, false] := by
  norm_num [check_martingale_property_by_time, colMean, List.range_succ,
    abs_of_nonneg]

end SanityChecks

/-! ### Helper lemmas about the betting state machine -/

theorem bettingState_succ (X : Nat → Int) (t : Nat) :
    bettingState X (t + 1) =
      (bettingState X t && (decide (t = 0) || decide (X (t - 1) = -1))) := rfl

theorem bettingState_of_succ (X : Nat → Int) (t : Nat)
    (h : bettingState X (t + 1) = true) : bettingState X t = true := by
  rw [bettingState_succ] at h
  exact (Bool.and_eq_true_iff.mp h).1

theorem bettingState_mono_false (X : Nat → Int) {t u : Nat} (htu : t ≤ u)
    (h : bettingState X t = false) : bettingState X u = false := by
  induction u, htu using Nat.le_induction with
  | base => exact h
  | succ u _ ih => rw [bettingState_succ, ih, Bool.false_and]

theorem B_of_stopped (X : Nat → Int) (t : Nat)
    (h : bettingState X t = false) : B X t = 0 := by
  cases t with
  | zero => simp [bettingState] at h
  | succ t => rw [B, if_neg (by simp [h])]

theorem W_succ_stopped (X : Nat → Int) (t : Nat)
    (h : bettingState X (t + 1) = false) : W X (t + 1) = W X t := by
  rw [W, if_neg (by simp [h])]

theorem W_flat_from (X : Nat → Int) {t u : Nat} (htu : t ≤ u)
    (h : bettingState X (t + 1) = false) : W X u = W X t := by
  induction u, htu using Nat.le_induction with
  | base => rfl
  | succ u hu ih =>
    rw [W_succ_stopped X u (bettingState_mono_false X (by omega) h), ih]

theorem betting_B_pow (X : Nat → Int) :
    ∀ t, bettingState X t = true → (t = 0 ∨ X (t - 1) = -1) → B X t = 2 ^ t := by
  intro t
  induction t with
  | zero => intro _ _; simp [B, bettingState]
  | succ t ih =>
    intro hb hx
    have hx' : X t = -1 := hx.resolve_left (by omega)
    have hb' := bettingState_of_succ X t hb
    have hprev : t = 0 ∨ X (t - 1) = -1 := by
      rw [bettingState_succ] at hb
      rcases (Bool.and_eq_true_iff.mp hb).2 |> Bool.or_eq_true_iff.mp with h | h
      · exact Or.inl (by simpa using h)
      · exact Or.inr (by simpa using h)
    rw [B, if_pos (by simp [hb]), if_pos hx', ih hb' hprev, pow_succ]
    ring

theorem betting_all_losses (X : Nat → Int) :
    ∀ t, bettingState X t = true → ∀ j, j + 2 ≤ t → X j = -1 := by
  intro t
  induction t with
  | zero => intro _ j hj; omega
  | succ t ih =>
    intro hb j hj
    rw [bettingState_succ] at hb
    obtain ⟨hb', hd⟩ := Bool.and_eq_true_iff.mp hb
    rcases Nat.lt_or_ge (j + 2) (t + 1) with h | h
    · exact ih hb' j (by omega)
    · have hjt : j = t - 1 := by omega
      have ht0 : t ≠ 0 := by omega
      rcases Bool.or_eq_true_iff.mp hd with h0 | h0
      · exact absurd (by simpa using h0) ht0
      · rw [hjt]; simpa using h0

/-! ### Claims about the betting simulator -/

/-- C1: the per-path state machine of `simulate_martingale_betting_strategy`
follows the spec's step rule: the stake is `1` at step `0`; at a step
`t + 1` while Betting, a previous loss (`X t = -1`) doubles the stake and
keeps the path Betting, while a previous win (`X t = 1`) zeroes the stake
for this and every later step and moves the path to Stopped; while Betting
`W[t] = W[t-1] + B[t] * X[t]` (with `W[-1]` treated as `0` at `t = 0`),
and while Stopped `W[t] = W[t-1]` exactly. -/
theorem betting_step_rule (X : Nat → Int) :
    B X 0 = 1 ∧
    W X 0 = B X 0 * X 0 ∧
    (∀ t, bettingState X (t + 1) = true →
      (X t = -1 → B X (t + 1) = 2 * B X t ∧ bettingState X (t + 2) = true) ∧
      (X t = 1 → B X (t + 1) = 0 ∧ bettingState X (t + 2) = false ∧
        ∀ u, t + 1 ≤ u → B X u = 0)) ∧
    (∀ t, bettingState X (t + 1) = true →
      W X (t + 1) = W X t + B X (t + 1) * X (t + 1)) ∧
    (∀ t, bettingState X (t + 1) = false → W X (t + 1) = W X t) := by
  refine ⟨by simp [B, bettingState], rfl, ?_, ?_, ?_⟩
  · intro t hb
    constructor
    · intro hx
      refine ⟨by rw [B, if_pos (by simp [hb]), if_pos hx], ?_⟩
      rw [bettingState_succ]
      simp [hb, hx]
    · intro hx
      have hxne : ¬(X t = -1) := by rw [hx]; decide
      have hB : B X (t + 1) = 0 := by rw [B, if_pos (by simp [hb]), if_neg hxne]
      have hstop : bettingState X (t + 2) = false := by
        rw [bettingState_succ]
        simp [hxne]
      refine ⟨hB, hstop, ?_⟩
      intro u hu
      rcases Nat.eq_or_lt_of_le hu with h | h
      · rw [← h, hB]
      · exact B_of_stopped X u (bettingState_mono_false X (by omega) hstop)
  · intro t hb
    rw [W, if_pos (by simp [hb])]
  · intro t hb
    exact W_succ_stopped X t hb

/-- Witness for C1 on the concrete toss row `X = [-1, 1, -1, ...]`. -/
theorem betting_step_rule_eval :
    B (fun t => if t = 1 then (1 : Int) else -1) 0 = 1 ∧
    B (fun t => if t = 1 then (1 : Int) else -1) 1 =
      2 * B (fun t => if t = 1 then (1 : Int) else -1) 0 ∧
    B (fun t => if t = 1 then (1 : Int) else -1) 2 = 0 := by
  have h := betting_step_rule (fun t => if t = 1 then (1 : Int) else -1)
  exact ⟨h.1, ((h.2.2.1 0 (by decide)).1 (by decide)).1,
    (((h.2.2.1 1 (by decide)).2 (by decide)).2.2 2 (by decide))⟩

/-- C4: stop-after-first-win invariant — once the win branch fires at step
`t + 1` (the path was Betting there and the previous toss `X t` was `+1`),
every later bet is exactly `0` and the winnings stay at their value at the
win-processing step for the remainder of the path. -/
theorem stop_after_first_win (X : Nat → Int) (t : Nat)
    (hb : bettingState X (t + 1) = true) (hw : X t = 1) :
    ∀ u, t + 1 ≤ u → B X u = 0 ∧ W X u = W X (t + 1) := by
  have hxne : ¬(X t = -1) := by rw [hw]; decide
  have hstop : bettingState X (t + 2) = false := by
    rw [bettingState_succ]
    simp [hxne]
  intro u hu
  constructor
  · rcases Nat.eq_or_lt_of_le hu with h | h
    · rw [← h, B, if_pos (by simp [hb]), if_neg hxne]
    · exact B_of_stopped X u (bettingState_mono_false X (by omega) hstop)
  · exact W_flat_from X hu hstop

/-- Witness for C4: the path `X = [-1, 1, ...]` wins at step `1`, so bets
vanish and winnings are flat from step `2` on. -/
theorem stop_after_first_win_eval :
    B (fun t => if t = 1 then (1 : Int) else -1) 3 = 0 ∧
    W (fun t => if t = 1 then (1 : Int) else -1) 3 =
      W (fun t => if t = 1 then (1 : Int) else -1) 2 := by
  exact stop_after_first_win (fun t => if t = 1 then (1 : Int) else -1) 1
    (by decide) (by decide) 3 (by decide)

/-- C8: a path whose first win happens at step `k` (toss `+1` at `k`, all
earlier tosses `-1`) has cumulative winnings exactly `+1` from step `k`
onwards, regardless of how many losses preceded the win. -/
theorem first_win_payout (X : Nat → Int) (k : Nat) (hk : X k = 1)
    (hprev : ∀ j, j < k → X j = -1) : ∀ t, k ≤ t → W X t = 1 := by
  have hbet : ∀ j, j ≤ k + 1 → bettingState X j = true := by
    intro j
    induction j with
    | zero => intro _; rfl
    | succ j ih =>
      intro hj
      have hbj : bettingState X j = true := ih (by omega)
      rw [bettingState_succ]
      rcases Nat.eq_zero_or_pos j with h0 | hpos
      · subst h0
        simp [bettingState]
      · simp [hbj, hprev (j - 1) (by omega)]
  have hB : ∀ j, j ≤ k → B X j = 2 ^ j := by
    intro j hj
    refine betting_B_pow X j (hbet j (by omega)) ?_
    rcases Nat.eq_zero_or_pos j with h0 | hpos
    · exact Or.inl h0
    · exact Or.inr (hprev _ (by omega))
  have hWpre : ∀ j, j < k → W X j = 1 - 2 ^ (j + 1) := by
    intro j
    induction j with
    | zero =>
      intro hj
      show B X 0 * X 0 = _
      rw [hB 0 (by omega), hprev 0 hj]
      norm_num
    | succ j ih =>
      intro hj
      rw [W, if_pos (by simp [hbet (j + 1) (by omega)]), ih (by omega),
        hB (j + 1) (by omega), hprev (j + 1) hj, pow_succ]
      ring
  have hWk : W X k = 1 := by
    cases k with
    | zero =>
      show B X 0 * X 0 = 1
      rw [hB 0 (by omega), hk]
      norm_num
    | succ j =>
      rw [W, if_pos (by simp [hbet (j + 1) (by omega)]), hWpre j (by omega),
        hB (j + 1) (by omega), hk]
      ring
  have hstop : bettingState X (k + 2) = false := by
    rw [bettingState_succ]
    simp [hk]
  have hW1 : W X (k + 1) = 1 := by
    have hBk1 : B X (k + 1) = 0 := by
      rw [B, if_pos (by simp [hbet (k + 1) (by omega)]), if_neg (by simp [hk])]
    rw [W, if_pos (by simp [hbet (k + 1) (by omega)]), hWk, hBk1]
    ring
  intro t ht
  rcases Nat.eq_or_lt_of_le ht with h | h
  · rw [← h, hWk]
  · rw [W_flat_from X (show k + 1 ≤ t by omega) hstop, hW1]

/-- Witness for C8: first win at step `2` after two losses; winnings are
`+1` at step `4`. -/
theorem first_win_payout_eval :
    W (fun t => if t = 2 then (1 : Int) else -1) 4 = 1 := by
  refine first_win_payout (fun t => if t = 2 then (1 : Int) else -1) 2
    (by decide) ?_ 4 (by decide)
  intro j hj
  have h01 : j = 0 ∨ j = 1 := by omega
  rcases h01 with h | h <;> rw [h] <;> rfl

/-- C9: every bet is `0` or exactly `2 ^ t`, and `B[t] = 2 ^ t` holds
precisely when tosses `X[0..t-2]` are all `-1`, the path is still Betting
at step `t`, and either `t = 0` or the previous toss `X[t-1]` was `-1`. -/
theorem bet_zero_or_two_pow (X : Nat → Int) :
    ∀ t, (B X t = 0 ∨ B X t = 2 ^ t) ∧
      (B X t = 2 ^ t ↔
        (∀ j, j + 2 ≤ t → X j = -1) ∧ bettingState X t = true ∧
          (t = 0 ∨ X (t - 1) = -1)) := by
  intro t
  constructor
  · cases t with
    | zero => exact Or.inr (by simp [B, bettingState])
    | succ t =>
      cases hb : bettingState X (t + 1) with
      | false => exact Or.inl (B_of_stopped X (t + 1) hb)
      | true =>
        by_cases hx : X t = -1
        · exact Or.inr (betting_B_pow X (t + 1) hb (Or.inr (by simpa using hx)))
        · exact Or.inl (by rw [B, if_pos (by simp [hb]), if_neg hx])
  · constructor
    · intro h
      have hne : B X t ≠ 0 := by
        rw [h]
        exact pow_ne_zero t (by norm_num)
      have hbT : bettingState X t = true := by
        cases hbc : bettingState X t with
        | false => exact absurd (B_of_stopped X t hbc) hne
        | true => rfl
      refine ⟨betting_all_losses X t hbT, hbT, ?_⟩
      cases t with
      | zero => exact Or.inl rfl
      | succ t =>
        refine Or.inr ?_
        by_contra hx
        exact hne (by rw [B, if_pos (by simp [hbT]), if_neg (by simpa using hx)])
    · rintro ⟨_, hbT, hd⟩
      exact betting_B_pow X t hbT hd

/-- Witness for C9: with all tosses `-1`, the bet at step `2` is `2 ^ 2`. -/
theorem bet_zero_or_two_pow_eval : B (fun _ => (-1 : Int)) 2 = 2 ^ 2 :=
  (bet_zero_or_two_pow (fun _ => (-1 : Int)) 2).2.mpr
    ⟨fun _ _ => rfl, by decide, Or.inr rfl⟩

/-- C10: the Stopped state is unreachable at steps `0` and `1` — each path
starts Betting and the first step that can observe `betting = False` at the
top of the loop is `t = 2` — so the copy-forward read `W[i, t - 1]` in the
Stopped branch always has `t - 1 ≥ 1` and never uses a negative position. -/
theorem stopped_not_before_two (X : Nat → Int) :
    bettingState X 0 = true ∧ bettingState X 1 = true ∧
    ∀ t, bettingState X t = false → 2 ≤ t ∧ 1 ≤ t - 1 := by
  refine ⟨rfl, by simp [bettingState], ?_⟩
  intro t h
  match t with
  | 0 => simp [bettingState] at h
  | 1 => simp [bettingState] at h
  | t + 2 => omega

/-- Witness for C10: a path that wins at step `0` is Stopped at step `2`,
and indeed `2 ≤ 2` and `1 ≤ 2 - 1`. -/
theorem stopped_not_before_two_eval : 2 ≤ 2 ∧ 1 ≤ 2 - 1 :=
  (stopped_not_before_two (fun _ => (1 : Int))).2.2 2 (by decide)

/-! ### Helper lemmas about partial sums -/

theorem cumsumRow_length (acc : Int) (r : List Int) :
    (cumsumRow acc r).length = r.length := by
  induction r generalizing acc with
  | nil => rfl
  | cons x xs ih => simp [cumsumRow, ih]

theorem cumsumRow_getD (r : List Int) :
    ∀ acc t, t < r.length →
      (cumsumRow acc r).getD t 0 = acc + (r.take (t + 1)).sum := by
  induction r with
  | nil => intro acc t h; simp at h
  | cons x xs ih =>
    intro acc t h
    cases t with
    | zero => simp [cumsumRow]
    | succ t =>
      rw [cumsumRow, List.getD_cons_succ, ih (acc + x) t (by simpa using h)]
      simp [List.take_cons]
      ring

theorem sum_take_getD (r : List Int) :
    ∀ t, t < r.length → (r.take (t + 1)).sum = (r.take t).sum + r.getD t 0 := by
  induction r with
  | nil => intro t h; simp at h
  | cons x xs ih =>
    intro t h
    cases t with
    | zero => simp
    | succ t =>
      rw [List.take_succ_cons, List.take_succ_cons, List.sum_cons, List.sum_cons,
        List.getD_cons_succ, ih t (by simpa using h)]
      ring

/-- C5: round-trip between tosses and partial sums — for every toss matrix
`X`, the first column of `build_partial_sums X` equals the first column of
`X`, and every later column `t` equals column `t - 1` plus column `t` of
`X`, for `1 ≤ t < n_steps`. -/
theorem build_partial_sums_roundtrip (X : List (List Int)) (n_steps : Nat)
    (hrect : ∀ r ∈ X, r.length = n_steps) :
    ∀ i, i < X.length →
      ((build_partial_sums X).getD i []).getD 0 0 = (X.getD i []).getD 0 0 ∧
      ∀ t, 1 ≤ t → t < n_steps →
        ((build_partial_sums X).getD i []).getD t 0 =
          ((build_partial_sums X).getD i []).getD (t - 1) 0 +
            (X.getD i []).getD t 0 := by
  intro i hi
  have hrow : (build_partial_sums X).getD i [] = cumsumRow 0 (X.getD i []) := by
    unfold build_partial_sums
    rw [List.getD_eq_getElem _ _ (by simpa using hi), List.getElem_map,
      List.getD_eq_getElem _ _ hi]
  have hlen : (X.getD i []).length = n_steps := by
    refine hrect _ ?_
    rw [List.getD_eq_getElem _ _ hi]
    exact List.getElem_mem hi
  constructor
  · rw [hrow]
    cases hX : X.getD i [] with
    | nil => rfl
    | cons x xs =>
      rw [cumsumRow, List.getD_cons_zero, List.getD_cons_zero, zero_add]
  · intro t h1 ht
    obtain ⟨u, hu⟩ : ∃ u, t = u + 1 := ⟨t - 1, by omega⟩
    subst hu
    rw [hrow]
    simp only [Nat.add_sub_cancel]
    rw [cumsumRow_getD (X.getD i []) 0 (u + 1) (by omega),
      cumsumRow_getD (X.getD i []) 0 u (by omega),
      sum_take_getD (X.getD i []) (u + 1) (by omega)]
    ring

/-- Witness for C5 on the matrix `[[1, -1, -1], [1, 1, 1]]`. -/
theorem build_partial_sums_roundtrip_eval :
    ((build_partial_sums [[1, -1, -1], [1, 1, 1]]).getD 0 []).getD 0 0 =
      (([[1, -1, -1], [1, 1, 1]] : List (List Int)).getD 0 []).getD 0 0 ∧
    ((build_partial_sums [[1, -1, -1], [1, 1, 1]]).getD 0 []).getD 2 0 =
      ((build_partial_sums [[1, -1, -1], [1, 1, 1]]).getD 0 []).getD 1 0 +
        (([[1, -1, -1], [1, 1, 1]] : List (List Int)).getD 0 []).getD 2 0 := by
  have h := build_partial_sums_roundtrip [[1, -1, -1], [1, 1, 1]] 3
    (by intro r hr; simp at hr; rcases hr with h | h <;> rw [h] <;> rfl) 0
    (by decide)
  exact ⟨h.1, h.2 2 (by decide) (by decide)⟩

/-! ### Helper lemmas about the grouping fold -/

theorem sizeSum_insertGroup {κ : Type} [DecidableEq κ] (k : κ) (v : Int)
    (g : List (κ × List Int)) : sizeSum (insertGroup k v g) = sizeSum g + 1 := by
  induction g with
  | nil => simp [insertGroup, sizeSum]
  | cons e rest ih =>
    by_cases h : e.1 = k
    · simp [insertGroup, h, sizeSum]
      omega
    · simp only [insertGroup, if_neg h, sizeSum, List.map_cons, List.sum_cons]
      simp only [sizeSum] at ih
      omega

theorem keys_insertGroup {κ : Type} [DecidableEq κ] (k : κ) (v : Int)
    (g : List (κ × List Int)) (x : κ) :
    x ∈ (insertGroup k v g).map Prod.fst ↔ x = k ∨ x ∈ g.map Prod.fst := by
  induction g with
  | nil => simp [insertGroup]
  | cons e rest ih =>
    by_cases h : e.1 = k
    · simp only [insertGroup, if_pos h, List.map_cons, List.mem_cons]
      subst h
      tauto
    · simp only [insertGroup, if_neg h, List.map_cons, List.mem_cons, ih]
      tauto

theorem nodup_keys_insertGroup {κ : Type} [DecidableEq κ] (k : κ) (v : Int)
    (g : List (κ × List Int)) (h : (g.map Prod.fst).Nodup) :
    ((insertGroup k v g).map Prod.fst).Nodup := by
  induction g with
  | nil => simp [insertGroup]
  | cons e rest ih =>
    simp only [List.map_cons, List.nodup_cons] at h
    by_cases he : e.1 = k
    · simp only [insertGroup, if_pos he, List.map_cons, List.nodup_cons]
      exact h
    · simp only [insertGroup, if_neg he, List.map_cons, List.nodup_cons]
      refine ⟨?_, ih h.2⟩
      rw [keys_insertGroup]
      rintro (hx | hx)
      · exact he hx
      · exact h.1 hx

theorem groupVals_nil {κ : Type} [DecidableEq κ] (k : κ) :
    groupVals k ([] : List (κ × List Int)) = [] := rfl

theorem groupVals_cons {κ : Type} [DecidableEq κ] (e : κ × List Int)
    (rest : List (κ × List Int)) (k : κ) :
    groupVals k (e :: rest) = if e.1 = k then e.2 else groupVals k rest := by
  by_cases h : e.1 = k
  · simp [groupVals, List.find?_cons, h]
  · simp [groupVals, List.find?_cons, h]

theorem groupVals_insertGroup {κ : Type} [DecidableEq κ] (k' : κ) (v : Int)
    (g : List (κ × List Int)) (k : κ) :
    groupVals k (insertGroup k' v g) =
      if k = k' then groupVals k g ++ [v] else groupVals k g := by
  induction g with
  | nil =>
    by_cases h : k = k'
    · subst h
      simp [insertGroup, groupVals_cons, groupVals_nil]
    · have h' : ¬(k' = k) := fun hx => h hx.symm
      simp [insertGroup, groupVals_cons, groupVals_nil, h, h']
  | cons e rest ih =>
    by_cases he : e.1 = k'
    · simp only [insertGroup, if_pos he, groupVals_cons]
      by_cases hk : k = k'
      · have hek : e.1 = k := by rw [he, hk]
        simp [hek, hk]
      · have hek : ¬(e.1 = k) := by rw [he]; exact fun hx => hk hx.symm
        simp [hek, hk]
    · simp only [insertGroup, if_neg he, groupVals_cons]
      by_cases hek : e.1 = k
      · have hk : ¬(k = k') := fun hx => he (hek.trans hx)
        simp [hek, hk]
      · simp [hek, ih]

theorem foldl_insert_sizeSum {κ : Type} [DecidableEq κ] (key : List Int → κ)
    (val : List Int → Int) (rows : List (List Int)) :
    ∀ init, sizeSum (rows.foldl
        (fun g row => insertGroup (key row) (val row) g) init) =
      sizeSum init + rows.length := by
  induction rows with
  | nil => intro init; simp
  | cons r rows ih =>
    intro init
    rw [List.foldl_cons, ih, sizeSum_insertGroup]
    simp
    omega

theorem foldl_insert_keys {κ : Type} [DecidableEq κ] (key : List Int → κ)
    (val : List Int → Int) (rows : List (List Int)) :
    ∀ init x, (x ∈ (rows.foldl
        (fun g row => insertGroup (key row) (val row) g) init).map Prod.fst ↔
      x ∈ init.map Prod.fst ∨ ∃ p ∈ rows, key p = x) := by
  induction rows with
  | nil => intro init x; simp
  | cons r rows ih =>
    intro init x
    rw [List.foldl_cons, ih, keys_insertGroup]
    simp
    tauto

theorem foldl_insert_nodup {κ : Type} [DecidableEq κ] (key : List Int → κ)
    (val : List Int → Int) (rows : List (List Int)) :
    ∀ init, (init.map Prod.fst).Nodup →
      ((rows.foldl
        (fun g row => insertGroup (key row) (val row) g) init).map
          Prod.fst).Nodup := by
  induction rows with
  | nil => intro init h; exact h
  | cons r rows ih =>
    intro init h
    rw [List.foldl_cons]
    exact ih _ (nodup_keys_insertGroup _ _ _ h)

theorem foldl_insert_groupVals {κ : Type} [DecidableEq κ] (key : List Int → κ)
    (val : List Int → Int) (rows : List (List Int)) :
    ∀ init k, groupVals k (rows.foldl
        (fun g row => insertGroup (key row) (val row) g) init) =
      groupVals k init ++
        (rows.filter (fun p => decide (key p = k))).map val := by
  induction rows with
  | nil => intro init k; simp
  | cons r rows ih =>
    intro init k
    rw [List.foldl_cons, ih, groupVals_insertGroup]
    by_cases h : key r = k
    · rw [if_pos h.symm, List.filter_cons_of_pos (by simp [h]), List.map_cons,
        List.append_assoc, List.singleton_append]
    · rw [if_neg (fun hx => h hx.symm), List.filter_cons_of_neg (by simp [h])]

theorem groupPaths_sizeSum {κ : Type} [DecidableEq κ] (key : List Int → κ)
    (val : List Int → Int) (rows : List (List Int)) :
    sizeSum (groupPaths key val rows) = rows.length := by
  rw [groupPaths, foldl_insert_sizeSum]
  simp [sizeSum]

theorem groupPaths_keys {κ : Type} [DecidableEq κ] (key : List Int → κ)
    (val : List Int → Int) (rows : List (List Int)) (x : κ) :
    x ∈ (groupPaths key val rows).map Prod.fst ↔ ∃ p ∈ rows, key p = x := by
  rw [groupPaths, foldl_insert_keys]
  simp

theorem groupPaths_nodup {κ : Type} [DecidableEq κ] (key : List Int → κ)
    (val : List Int → Int) (rows : List (List Int)) :
    ((groupPaths key val rows).map Prod.fst).Nodup := by
  rw [groupPaths]
  exact foldl_insert_nodup key val rows [] (by simp)

theorem groupPaths_groupVals {κ : Type} [DecidableEq κ] (key : List Int → κ)
    (val : List Int → Int) (rows : List (List Int)) (k : κ) :
    groupVals k (groupPaths key val rows) =
      (rows.filter (fun p => decide (key p = k))).map val := by
  rw [groupPaths, foldl_insert_groupVals]
  rfl

/-! ### Claims about the estimators and the checker -/

/-- C2: both estimators fail with the `InvalidArgument` error exactly when
`t` falls outside `[0, n_steps − 2]` — they error for `t < 0` and for
`t ≥ n_steps − 1`, and succeed for every `t` with `0 ≤ t < n_steps − 1`. -/
theorem estimators_error_iff (tosses ps : List (List Int)) (n_steps : Nat)
    (t : Int) (h1 : tosses ≠ []) (h2 : ∀ r ∈ tosses, r.length = n_steps)
    (h3 : ps ≠ []) (h4 : ∀ r ∈ ps, r.length = n_steps) :
    ((∃ e, estimate_conditional_expectation tosses t = .error e) ↔
      (t < 0 ∨ (n_steps : Int) - 1 ≤ t)) ∧
    ((∃ m, estimate_conditional_expectation tosses t = .ok m) ↔
      (0 ≤ t ∧ t < (n_steps : Int) - 1)) ∧
    ((∃ e, estimate_conditional_expectation_sums ps t = .error e) ↔
      (t < 0 ∨ (n_steps : Int) - 1 ≤ t)) ∧
    ((∃ m, estimate_conditional_expectation_sums ps t = .ok m) ↔
      (0 ≤ t ∧ t < (n_steps : Int) - 1)) := by
  have hh : (tosses.headD []).length = n_steps := by
    cases tosses with
    | nil => exact absurd rfl h1
    | cons r rest => exact h2 r (List.mem_cons_self r rest)
  have hh2 : (ps.headD []).length = n_steps := by
    cases ps with
    | nil => exact absurd rfl h3
    | cons r rest => exact h4 r (List.mem_cons_self r rest)
  unfold estimate_conditional_expectation estimate_conditional_expectation_sums
  rw [hh, hh2]
  by_cases hc : 0 ≤ t ∧ t < (n_steps : Int) - 1
  · rw [if_pos hc, if_pos hc]
    refine ⟨?_, ?_, ?_, ?_⟩ <;> simp <;> omega
  · rw [if_neg hc, if_neg hc]
    refine ⟨?_, ?_, ?_, ?_⟩ <;> simp <;> omega

/-- Witness for C2 on a `1 × 3` matrix: `t = 1` succeeds, and `t = 2`
(that is, `n_steps − 1`) errors. -/
theorem estimators_error_iff_eval :
    ((∃ m, estimate_conditional_expectation [[1, -1, 1]] 1 = .ok m) ∧
      ∃ e, estimate_conditional_expectation [[1, -1, 1]] 2 = .error e) := by
  have ha := estimators_error_iff [[1, -1, 1]] [[1, 0, 1]] 3 1 (by decide)
    (by decide) (by decide) (by decide)
  have hb := estimators_error_iff [[1, -1, 1]] [[1, 0, 1]] 3 2 (by decide)
    (by decide) (by decide) (by decide)
  exact ⟨ha.2.1.mpr (by decide), hb.1.mpr (by decide)⟩

/-- C3: for every valid `t`, the grouping in both estimators partitions the
paths — the groups' observation counts add up to `n_paths`, the group of
key `k` holds exactly the next-step values of the paths whose key is `k`,
and the returned map has pairwise-distinct keys covering exactly the keys
that occur among the input paths. -/
theorem grouping_partition (tosses ps : List (List Int)) (n_steps : Nat)
    (t : Int) (h1 : tosses ≠ []) (h2 : ∀ r ∈ tosses, r.length = n_steps)
    (h3 : ps ≠ []) (h4 : ∀ r ∈ ps, r.length = n_steps)
    (ht : 0 ≤ t ∧ t < (n_steps : Int) - 1) :
    (∃ m, estimate_conditional_expectation tosses t = .ok m ∧
      (m.map Prod.fst).Nodup ∧
      ∀ k, k ∈ m.map Prod.fst ↔ ∃ p ∈ tosses, p.take (t.toNat + 1) = k) ∧
    sizeSum (groupPaths (fun p => p.take (t.toNat + 1))
      (fun p => p.getD (t.toNat + 1) 0) tosses) = tosses.length ∧
    (∀ k, groupVals k (groupPaths (fun p => p.take (t.toNat + 1))
        (fun p => p.getD (t.toNat + 1) 0) tosses) =
      (tosses.filter (fun p => decide (p.take (t.toNat + 1) = k))).map
        (fun p => p.getD (t.toNat + 1) 0)) ∧
    (∃ m, estimate_conditional_expectation_sums ps t = .ok m ∧
      (m.map Prod.fst).Nodup ∧
      ∀ k, k ∈ m.map Prod.fst ↔ ∃ p ∈ ps, p.getD t.toNat 0 = k) ∧
    sizeSum (groupPaths (fun S => S.getD t.toNat 0)
      (fun S => S.getD (t.toNat + 1) 0) ps) = ps.length ∧
    ∀ k, groupVals k (groupPaths (fun S => S.getD t.toNat 0)
        (fun S => S.getD (t.toNat + 1) 0) ps) =
      (ps.filter (fun S => decide (S.getD t.toNat 0 = k))).map
        (fun S => S.getD (t.toNat + 1) 0) := by
  have hh : (tosses.headD []).length = n_steps := by
    cases tosses with
    | nil => exact absurd rfl h1
    | cons r rest => exact h2 r (List.mem_cons_self r rest)
  have hh2 : (ps.headD []).length = n_steps := by
    cases ps with
    | nil => exact absurd rfl h3
    | cons r rest => exact h4 r (List.mem_cons_self r rest)
  have hok : estimate_conditional_expectation tosses t =
      .ok ((groupPaths (fun p => p.take (t.toNat + 1))
        (fun p => p.getD (t.toNat + 1) 0) tosses).map
          (fun e => (e.1, mean e.2))) := by
    unfold estimate_conditional_expectation
    rw [hh, if_pos ht]
  have hok2 : estimate_conditional_expectation_sums ps t =
      .ok ((groupPaths (fun S => S.getD t.toNat 0)
        (fun S => S.getD (t.toNat + 1) 0) ps).map
          (fun e => (e.1, mean e.2))) := by
    unfold estimate_conditional_expectation_sums
    rw [hh2, if_pos ht]
  refine ⟨⟨_, hok, ?_, ?_⟩, groupPaths_sizeSum _ _ _,
    fun k => groupPaths_groupVals _ _ _ k, ⟨_, hok2, ?_, ?_⟩,
    groupPaths_sizeSum _ _ _, fun k => groupPaths_groupVals _ _ _ k⟩
  · simpa [List.map_map, Function.comp] using
      groupPaths_nodup (fun p => p.take (t.toNat + 1))
        (fun p => p.getD (t.toNat + 1) 0) tosses
  · intro k
    have := groupPaths_keys (fun p => p.take (t.toNat + 1))
      (fun p => p.getD (t.toNat + 1) 0) tosses k
    simpa [List.map_map, Function.comp] using this
  · simpa [List.map_map, Function.comp] using
      groupPaths_nodup (fun S => S.getD t.toNat 0)
        (fun S => S.getD (t.toNat + 1) 0) ps
  · intro k
    have := groupPaths_keys (fun S => S.getD t.toNat 0)
      (fun S => S.getD (t.toNat + 1) 0) ps k
    simpa [List.map_map, Function.comp] using this

/-- Witness for C3: the three-path scenario matrix at `t = 1` has group
sizes summing to `3`. -/
theorem grouping_partition_eval :
    sizeSum (groupPaths (fun p => p.take ((1 : Int).toNat + 1))
      (fun p => p.getD ((1 : Int).toNat + 1) 0)
      [[1, 1, -1], [1, 1, 1], [1, -1, 1]]) = 3 :=
  (grouping_partition [[1, 1, -1], [1, 1, 1], [1, -1, 1]] [[1, 2, 1], [1, 2, 3], [1, 0, 1]]
    3 1 (by decide) (by decide) (by decide) (by decide) (by decide)).2.1

/-- C6: the martingale checker returns exactly `n_steps − 1` booleans, in
increasing order of `t`, and entry `t` is `true` iff the absolute
difference of the cross-path means at steps `t + 1` and `t` is strictly
below `tol`. -/
theorem martingale_check_spec (process : List (List Rat)) (tol : Rat)
    (n_steps : Nat) (h1 : process ≠ [])
    (h2 : ∀ r ∈ process, r.length = n_steps) :
    (check_martingale_property_by_time process tol).length = n_steps - 1 ∧
    ∀ t, t < n_steps - 1 →
      ((check_martingale_property_by_time process tol).getD t false = true ↔
        |colMean process (t + 1) - colMean process t| < tol) := by
  have hh : (process.headD []).length = n_steps := by
    cases process with
    | nil => exact absurd rfl h1
    | cons r rest => exact h2 r (List.mem_cons_self r rest)
  unfold check_martingale_property_by_time
  rw [hh]
  refine ⟨by simp, ?_⟩
  intro t ht
  rw [List.getD_eq_getElem _ _ (by simpa using ht), List.getElem_map]
  simp [List.getElem_range]

/-- Witness for C6 on a `2 × 3` matrix with `tol = 1/2`: two booleans,
`true` at `t = 0` and `false` at `t = 1`. -/
theorem martingale_check_spec_eval :
    (check_martingale_property_by_time [[0, 1, 0], [0, -1, 1]]
      (1 / 2)).length = 3 - 1 ∧
    ((check_martingale_property_by_time [[0, 1, 0], [0, -1, 1]]
      (1 / 2)).getD 0 false = true ↔
      |colMean [[0, 1, 0], [0, -1, 1]] 1 -
        colMean [[0, 1, 0], [0, -1, 1]] 0| < 1 / 2) := by
  have h := martingale_check_spec [[0, 1, 0], [0, -1, 1]] (1 / 2) 3
    (by decide) (by intro r hr; simp at hr; rcases hr with h | h <;> rw [h] <;> rfl)
  exact ⟨h.1, h.2 0 (by decide)⟩

/-- C7: on the path matrix `[[1,1,-1],[1,1,1],[1,-1,1]]` with `t = 1` the
history estimator returns exactly two entries — key `(1,1)` with mean `0`
of next-step values `[-1, 1]`, and key `(1,-1)` with mean `1` of the single
next-step value `[1]` (a size-one group yields its single observation). -/
theorem estimate_by_history_scenario :
    estimate_conditional_expectation [[1, 1, -1], [1, 1, 1], [1, -1, 1]] 1 =
      .ok [([1, 1], 0), ([1, -1], 1)] := by
  norm_num [estimate_conditional_expectation, groupPaths, insertGroup, mean]
